import Mathlib

/-!
Verification of the react-native-jala-orm model layer against its specification.

The JavaScript source is shallowly embedded: JS objects become association
lists (`List (String × α)`, first binding wins, insertion order preserved),
JS numbers are modelled as integers (`Int`, with an explicit `nan` value where
NaN-propagation matters), moments (dates) are modelled as epoch seconds, and
external collaborators (the `moment` library, `JSON`, lodash `_.set`,
user-defined mutators and relationship methods) are parameters bundled in an
environment structure.  Fallible paths return `Except`.
-/

namespace JalaORM

/-! ## Shared association-list operations (JS plain objects) -/

/-- JS object property assignment: replaces the binding in place if the key
exists, appends a new binding otherwise (JS objects keep insertion order). -/
def objSet {κ α : Type} [DecidableEq κ] : List (κ × α) → κ → α → List (κ × α)
  | [], k, v => [(k, v)]
  | (k1, v1) :: rest, k, v =>
    if k1 = k then (k, v) :: rest else (k1, v1) :: objSet rest k v

/-- Property lookup on a JS object. -/
def objGet {κ α : Type} [DecidableEq κ] (l : List (κ × α)) (k : κ) : Option α :=
  match l with
  | [] => none
  | (k1, v1) :: rest => if k1 = k then some v1 else objGet rest k

/-- The keys of a JS object, in insertion order. -/
def objKeys {κ α : Type} (l : List (κ × α)) : List κ :=
  l.map Prod.fst

/-- JS object spread `{...a, ...b}`: keys of `a` in order with values from `b`
when `b` redefines them, then the keys of `b` that are not in `a`. -/
def spreadMerge {κ α : Type} [DecidableEq κ] (a b : List (κ × α)) : List (κ × α) :=
  a.map (fun p => (p.1, (objGet b p.1).getD p.2)) ++
    b.filter (fun p => (objGet a p.1).isNone)

/-- lodash `_.uniq`: keeps the first occurrence of each element. -/
def jsUniq {α : Type} [DecidableEq α] (l : List α) : List α :=
  l.foldl (fun acc x => if acc.contains x then acc else acc ++ [x]) []

section ObjLemmas

variable {κ α : Type} [DecidableEq κ]

theorem objGet_objSet_self (l : List (κ × α)) (k : κ) (v : α) :
    objGet (objSet l k v) k = some v := by
  induction l with
  | nil => simp [objSet, objGet]
  | cons hd tl ih =>
    by_cases h : hd.1 = k
    · simp [objSet, objGet, h]
    · simp [objSet, objGet, h, ih]

theorem objGet_eq_some_of_mem {l : List (κ × α)} {k : κ} {v : α}
    (hmem : (k, v) ∈ l) (hnd : (objKeys l).Nodup) : objGet l k = some v := by
  induction l with
  | nil => simp at hmem
  | cons hd tl ih =>
    simp only [objKeys, List.map_cons, List.nodup_cons] at hnd
    rcases List.mem_cons.mp hmem with h | h
    · subst h; simp [objGet]
    · have hne : hd.1 ≠ k := by
        intro he
        exact hnd.1 (he ▸ (List.mem_map.mpr ⟨(k, v), h, rfl⟩))
      simp only [objGet, if_neg hne]
      exact ih h hnd.2

theorem objGet_filter (p : κ × α → Bool) (l : List (κ × α))
    (k : κ) (v : α) (h : objGet l k = some v) (hp : p (k, v) = true) :
    objGet (l.filter p) k = some v := by
  induction l with
  | nil => simp [objGet] at h
  | cons hd tl ih =>
    by_cases hk : hd.1 = k
    · simp only [objGet, if_pos hk] at h
      have : hd = (k, v) := by
        cases hd; simp_all
      subst this
      simp [List.filter, hp, objGet]
    · simp only [objGet, if_neg hk] at h
      cases hfp : p hd with
      | true => simpa [List.filter, hfp, objGet, hk] using ih h
      | false => simpa [List.filter, hfp] using ih h

theorem isSome_objGet_of_mem_keys {l : List (κ × α)} {k : κ}
    (h : k ∈ objKeys l) : (objGet l k).isSome := by
  induction l with
  | nil => simp [objKeys] at h
  | cons hd tl ih =>
    by_cases hk : hd.1 = k
    · simp [objGet, hk]
    · simp only [objKeys, List.map_cons, List.mem_cons] at h
      rcases h with h | h
      · exact absurd h.symm hk
      · simpa [objGet, hk] using ih h

theorem mem_keys_of_objGet_isSome {l : List (κ × α)} {k : κ}
    (h : (objGet l k).isSome) : k ∈ objKeys l := by
  induction l with
  | nil => simp [objGet] at h
  | cons hd tl ih =>
    by_cases hk : hd.1 = k
    · simp [objKeys, hk.symm]
    · simp only [objGet, if_neg hk] at h
      simp only [objKeys, List.map_cons, List.mem_cons]
      exact Or.inr (ih h)

theorem objGet_append_left {l t : List (κ × α)} {k : κ} {v : α}
    (h : objGet l k = some v) : objGet (l ++ t) k = some v := by
  induction l with
  | nil => simp [objGet] at h
  | cons hd tl ih =>
    by_cases hk : hd.1 = k
    · simp only [objGet, if_pos hk] at h
      simp [objGet, hk, h]
    · simp only [objGet, if_neg hk] at h
      simpa [objGet, hk] using ih h

theorem objGet_append_of_none {l : List (κ × α)} (t : List (κ × α)) {k : κ}
    (h : objGet l k = none) : objGet (l ++ t) k = objGet t k := by
  induction l with
  | nil => simp
  | cons hd tl ih =>
    by_cases hk : hd.1 = k
    · simp [objGet, hk] at h
    · simp only [objGet, if_neg hk] at h
      simpa [objGet, hk] using ih h

theorem objGet_objSet (l : List (κ × α)) (k2 k : κ) (v : α) :
    objGet (objSet l k2 v) k = if k2 = k then some v else objGet l k := by
  induction l with
  | nil => by_cases h : k2 = k <;> simp [objSet, objGet, h]
  | cons hd tl ih =>
    by_cases h : hd.1 = k2
    · by_cases hk : k2 = k
      · simp [objSet, objGet, h, hk]
      · have hne : hd.1 ≠ k := by rw [h]; exact hk
        simp [objSet, objGet, h, hk, hne]
    · by_cases hk : hd.1 = k
      · have hne : k2 ≠ k := fun he => h (by rw [hk, he])
        simp [objSet, objGet, h, hk, hne, Ne.symm hne]
      · simp [objSet, objGet, h, hk, ih]

theorem mem_objKeys_objSet_self (l : List (κ × α)) (k : κ) (v : α) :
    k ∈ objKeys (objSet l k v) :=
  mem_keys_of_objGet_isSome (by simp [objGet_objSet_self])

theorem mem_objKeys_objSet_of_mem {l : List (κ × α)} {k : κ} (k2 : κ) (v : α)
    (h : k ∈ objKeys l) : k ∈ objKeys (objSet l k2 v) := by
  apply mem_keys_of_objGet_isSome
  rw [objGet_objSet]
  by_cases hk : k2 = k
  · simp [hk]
  · simpa [hk] using isSome_objGet_of_mem_keys h

theorem mem_objKeys_of_objSet {l : List (κ × α)} {k k2 : κ} {v : α}
    (h : k ∈ objKeys (objSet l k2 v)) : k ∈ objKeys l ∨ k = k2 := by
  have := isSome_objGet_of_mem_keys h
  rw [objGet_objSet] at this
  by_cases hk : k2 = k
  · exact Or.inr hk.symm
  · simp only [if_neg hk] at this
    exact Or.inl (mem_keys_of_objGet_isSome this)

end ObjLemmas

/-! ## Transaction manager (`src/concerns/ManagesTransactions.js`)

State machine over the integer nesting counter `_transactions` plus a log of
the operations issued to the PDO connection.  Errors carry a deadlock flag
(`_causedByDeadlock` classifies by message; we model its verdict directly).
Lost-connection handling during begin/rollback is not exercised by the claims
and the PDO calls are assumed to succeed. -/

inductive PdoOp where
  | begin : PdoOp
  | commit : PdoOp
  | rollback : PdoOp
  | savepoint : Int → PdoOp
  | savepointRollback : Int → PdoOp
deriving DecidableEq, Repr

structure Conn where
  transactions : Int
  ops : List PdoOp
deriving DecidableEq, Repr

structure TxErr where
  deadlock : Bool
deriving DecidableEq, Repr

/-- `_createTransaction`: real begin at depth 0, savepoint `trans(depth+1)`
when nested and the grammar supports savepoints. -/
def createTransaction (sp : Bool) (s : Conn) : Conn :=
  if s.transactions = 0 then
    { s with ops := s.ops ++ [PdoOp.begin] }
  else if 1 ≤ s.transactions && sp then
    { s with ops := s.ops ++ [PdoOp.savepoint (s.transactions + 1)] }
  else s

/-- `beginTransaction`: create, then increment the nesting counter. -/
def beginTransaction (sp : Bool) (s : Conn) : Conn :=
  let s1 := createTransaction sp s
  { s1 with transactions := s1.transactions + 1 }

/-- `commit`: real commit only at depth 1; counter clamped at 0. -/
def commit (s : Conn) : Conn :=
  let s1 := if s.transactions = 1 then { s with ops := s.ops ++ [PdoOp.commit] } else s
  { s1 with transactions := max 0 (s1.transactions - 1) }

/-- `_performRollBack`: real rollback to level 0, else savepoint rollback. -/
def performRollBack (sp : Bool) (toLevel : Int) (s : Conn) : Conn :=
  if toLevel = 0 then { s with ops := s.ops ++ [PdoOp.rollback] }
  else if sp then { s with ops := s.ops ++ [PdoOp.savepointRollback (toLevel + 1)] }
  else s

/-- `rollBack(toLevel)`: default target is `transactions - 1`; out-of-range
targets are a no-op; otherwise perform the rollback and set the counter. -/
def rollBack (sp : Bool) (toLevel? : Option Int) (s : Conn) : Conn :=
  let toLevel := toLevel?.getD (s.transactions - 1)
  if toLevel < 0 || s.transactions ≤ toLevel then s
  else
    let s1 := performRollBack sp toLevel s
    { s1 with transactions := toLevel }

/-- `_handleTransactionException`: on a deadlock at depth > 1, decrement the
counter and re-throw (`true` = throws); otherwise roll back, and swallow the
error only when it is a deadlock with attempts remaining. -/
def handleTransactionException (sp : Bool) (e : TxErr)
    (currentAttempt maxAttempts : Nat) (s : Conn) : Conn × Bool :=
  if e.deadlock && 1 < s.transactions then
    ({ s with transactions := s.transactions - 1 }, true)
  else
    let s1 := rollBack sp none s
    if e.deadlock && currentAttempt < maxAttempts then (s1, false) else (s1, true)

structure TxRun (α : Type) where
  conn : Conn
  result : Except TxErr (Option α)
  calls : Nat
deriving Repr

/-- The retry loop of `transaction(callback, attempts)`.  `remaining` counts
the loop iterations left (`attempts - current + 1`); falling off the loop
returns JS `undefined`, modelled as `.ok none`.  When the handler throws, the
enclosing `catch` in `transaction` runs `this.rollBack()` before re-throwing. -/
def transactionGo {α : Type} (sp : Bool) (cb : Nat → Except TxErr α)
    (attempts : Nat) : Nat → Nat → Conn → TxRun α
  | 0, _, s => ⟨s, Except.ok none, 0⟩
  | remaining + 1, current, s =>
    let s1 := beginTransaction sp s
    match cb current with
    | Except.ok v => ⟨commit s1, Except.ok (some v), 1⟩
    | Except.error e =>
      match handleTransactionException sp e current attempts s1 with
      | (s2, true) => ⟨rollBack sp none s2, Except.error e, 1⟩
      | (s2, false) =>
        let r := transactionGo sp cb attempts remaining (current + 1) s2
        ⟨r.conn, r.result, r.calls + 1⟩

/-- `transaction(callback, attempts)` starting from connection state `s`. -/
def transaction {α : Type} (sp : Bool) (cb : Nat → Except TxErr α)
    (attempts : Nat) (s : Conn) : TxRun α :=
  transactionGo sp cb attempts attempts 1 s

/-- `transactionLevel()`. -/
def transactionLevel (s : Conn) : Int := s.transactions

/-- A callback that deadlocks on its first two invocations and succeeds on
the third, returning 42. -/
def deadlockTwiceCb (n : Nat) : Except TxErr Nat :=
  if n ≤ 2 then Except.error ⟨true⟩ else Except.ok 42

/-- A callback that always raises a deadlock-classified error. -/
def alwaysDeadlockCb (_ : Nat) : Except TxErr Nat :=
  Except.error ⟨true⟩

/-! ## Scope application and where-regrouping (`src/model/Builder.js`)

`_callScope` snapshots `query.wheres` before running the scope and regroups
the predicate list afterwards.  The source assigns the `wheres` ARRAY itself
(not its length) to `originalWhereCount`; the later guard
`query.wheres.length > originalWhereCount` therefore compares a number with
an array under JS coercion.  The repository's own `QueryBuilder.where`
replaces the array (`this.wheres = [...this.wheres, entry]`), so the
snapshot keeps the pre-scope array. -/

inductive WBool where
  | wand : WBool
  | wor : WBool
deriving DecidableEq, Repr

/-- A `wheres` entry: a basic predicate (identified by an index into an
environment) or a `Nested` group, each joined by `and`/`or`. -/
inductive WhereEntry where
  | basic : WBool → Nat → WhereEntry
  | nested : WBool → List WhereEntry → WhereEntry
deriving Repr

/-- The `boolean` field of a wheres entry. -/
def boolOf : WhereEntry → WBool
  | WhereEntry.basic b _ => b
  | WhereEntry.nested b _ => b

mutual
/-- SQL truth value of one predicate under an environment. -/
def evalEntry (env : Nat → Bool) : WhereEntry → Bool
  | WhereEntry.basic _ p => env p
  | WhereEntry.nested _ ws => evalChain env ws

/-- SQL truth value of a WHERE chain: the first entry's connective is
ignored, later entries combine left to right with their own connective
(`AND` binding is irrelevant at this flat-chain granularity). -/
def evalChain (env : Nat → Bool) : List WhereEntry → Bool
  | [] => true
  | w :: ws => evalTail env (evalEntry env w) ws

def evalTail (env : Nat → Bool) (acc : Bool) : List WhereEntry → Bool
  | [] => acc
  | w :: ws =>
    match boolOf w with
    | WBool.wand => evalTail env (acc && evalEntry env w) ws
    | WBool.wor => evalTail env (acc || evalEntry env w) ws
end

/-- JS `ToNumber` of a wheres array (via `Array.prototype.toString`): the
empty array stringifies to `""` hence 0; a non-empty array of where records
stringifies to `"[object Object]..."` hence `NaN` (`none`). -/
def arrayToNumber (ws : List WhereEntry) : Option Int :=
  match ws with
  | [] => some 0
  | _ => none

/-- JS `n > arr` between a number and an array: `NaN` comparisons are false. -/
def jsGtArray (n : Nat) (ws : List WhereEntry) : Bool :=
  match arrayToNumber ws with
  | some m => m < (n : Int)
  | none => false

/-- lodash `toInteger` applied to a wheres array (as `_.slice` does to a
non-numeric bound): `[]` coerces to 0, a non-empty array coerces to `NaN`
which `toInteger` maps to 0. -/
def lodashToInteger (ws : List WhereEntry) : Nat :=
  match arrayToNumber ws with
  | some m => m.toNat
  | none => 0

/-- `_createNestedWhere`. -/
def createNestedWhere (slice : List WhereEntry) (b : WBool) : WhereEntry :=
  WhereEntry.nested b slice

/-- lodash `_.merge(cur, slice)` on two arrays of where records merges
index-wise; every field of a where record is a primitive, so the source
record overwrites the target at each shared index and longer-array elements
survive. -/
def lodashMergeWheres (cur slice : List WhereEntry) : List WhereEntry :=
  slice ++ cur.drop slice.length

/-- `_groupWhereSliceForScope`: a slice containing an `or`-joined member is
pushed as one nested group (joined by the slice's first connective,
defaulting to `and` for an empty slice); otherwise the slice is merged in. -/
def groupWhereSliceForScope (cur slice : List WhereEntry) : List WhereEntry :=
  let whereBooleans := slice.map boolOf
  if whereBooleans.contains WBool.wor then
    cur ++ [createNestedWhere slice (whereBooleans.headD WBool.wand)]
  else
    lodashMergeWheres cur slice

/-- `_addNewWheresWithinGroup`: empty the list, then re-add the two slices
(the bound `originalWhereCount` is the snapshotted ARRAY, which `_.slice`
coerces to an integer). -/
def addNewWheresWithinGroup (allWheres : List WhereEntry)
    (originalWhereCount : List WhereEntry) : List WhereEntry :=
  let cut := lodashToInteger originalWhereCount
  groupWhereSliceForScope
    (groupWhereSliceForScope [] (allWheres.take cut))
    (allWheres.drop cut)

/-- `_callScope` restricted to its effect on `query.wheres`: `w0` is the
predicate list before the scope runs and `delta` the predicates the scope
appends.  `originalWhereCount` is bound to the wheres array itself (a slip:
the comment says it tracks "how many wheres are on the query"), so the
regrouping guard compares the new length against that array. -/
def callScope (w0 delta : List WhereEntry) : List WhereEntry :=
  let originalWhereCount := w0
  let wheresAfter := w0 ++ delta
  if jsGtArray wheresAfter.length originalWhereCount then
    addNewWheresWithinGroup wheresAfter originalWhereCount
  else
    wheresAfter

/-- `applyScopes` restricted to its effect on `query.wheres`: each applied
scope is run through `_callScope`. -/
def applyScopes (scopes : List (List WhereEntry)) (w0 : List WhereEntry) :
    List WhereEntry :=
  scopes.foldl (fun w delta => callScope w delta) w0

/-- The environment falsifying `P1 AND (P2)` while satisfying `P1 OR P2`. -/
def envCE : Nat → Bool
  | 0 => false
  | _ => true

/-- C1: claims that a scope adding an `or`-joined predicate `P2` to a builder
already holding a caller predicate `P1` leaves the where list logically
equivalent to `P1 AND (P2)` via regrouping.  In the code,
`originalWhereCount` is bound to the `wheres` array instead of its length,
so the guard `query.wheres.length > originalWhereCount` coerces the
non-empty snapshot array to `NaN` and is false: no regrouping happens, the
list stays flat `[P1 (and), P2 (or)]` and compiles to `P1 OR P2` — the shape
the spec says must never arise.  At the environment `P1 = false, P2 = true`
the code's predicate is true while the claimed `P1 AND (P2)` is false. -/
theorem c1_scope_or_grouping_lost :
    callScope [WhereEntry.basic WBool.wand 0] [WhereEntry.basic WBool.wor 1] =
      [WhereEntry.basic WBool.wand 0, WhereEntry.basic WBool.wor 1] ∧
    evalChain envCE
      (callScope [WhereEntry.basic WBool.wand 0] [WhereEntry.basic WBool.wor 1]) = true ∧
    (envCE 0 && envCE 1) = false := by
  exact ⟨rfl, rfl, rfl⟩

/-- C2: the two retry scenarios hold exactly as claimed — with 3 attempts the
deadlock-deadlock-success callback runs three times, a real commit is
issued and 42 is returned; with 2 attempts the deadlock is re-thrown after
the second run, the transaction was rolled back and the level is 0.  The
nested-deadlock clause fails: calling `transaction(cb, 1)` at level 1 (so
the deadlock hits at depth 2) re-throws without retry, but after
`_handleTransactionException` decrements the counter to 1 the enclosing
`catch` in `transaction` runs `this.rollBack()`, which issues a REAL
`ROLLBACK` and drops the level to 0 — not the claimed decrement-only. -/
theorem c2_transaction_retry_nested_rollback :
    transaction true deadlockTwiceCb 3 ⟨0, []⟩ =
      ⟨⟨0, [PdoOp.begin, PdoOp.rollback, PdoOp.begin, PdoOp.rollback,
            PdoOp.begin, PdoOp.commit]⟩, Except.ok (some 42), 3⟩ ∧
    transaction true deadlockTwiceCb 2 ⟨0, []⟩ =
      ⟨⟨0, [PdoOp.begin, PdoOp.rollback, PdoOp.begin, PdoOp.rollback]⟩,
        Except.error ⟨true⟩, 2⟩ ∧
    transaction true alwaysDeadlockCb 1 ⟨1, []⟩ =
      ⟨⟨0, [PdoOp.savepoint 2, PdoOp.rollback]⟩, Except.error ⟨true⟩, 1⟩ := by
  exact ⟨rfl, rfl, rfl⟩

/-! ## Attribute state machine (`src/model/concerns/HasAttributes.js`)

JS values are modelled by `JSVal`: numbers restricted to integers with an
explicit `nan`, moments (and `Date`s) as epoch seconds under `date`.
`moment`, `JSON.parse`, lodash `_.set`, user-defined mutators and the
relationship engine are external collaborators supplied through `JsEnv`. -/

inductive JSVal where
  | null : JSVal
  | undef : JSVal
  | nan : JSVal
  | bool : Bool → JSVal
  | num : Int → JSVal
  | str : String → JSVal
  | date : Int → JSVal
deriving DecidableEq, Repr

/-- JS strict equality `===`.  `NaN === NaN` is false.  Moments are objects,
compared by reference in JS; equal epoch stands for the same instance (the
only comparisons the model performs arise from the shallow `original` copy,
whose entries alias the same object). -/
def strictEq : JSVal → JSVal → Bool
  | JSVal.nan, _ => false
  | _, JSVal.nan => false
  | JSVal.null, JSVal.null => true
  | JSVal.undef, JSVal.undef => true
  | JSVal.bool a, JSVal.bool b => a = b
  | JSVal.num a, JSVal.num b => a = b
  | JSVal.str a, JSVal.str b => a = b
  | JSVal.date a, JSVal.date b => a = b
  | _, _ => false

/-- JS falsiness: `null`, `undefined`, `NaN`, `false`, `0`, `""`. -/
def jsFalsy : JSVal → Bool
  | JSVal.null => true
  | JSVal.undef => true
  | JSVal.nan => true
  | JSVal.bool b => !b
  | JSVal.num n => n = 0
  | JSVal.str s => s = ""
  | JSVal.date _ => false

def jsTruthy (v : JSVal) : Bool := !jsFalsy v

/-- JS `String(v)` / `v.toString()`.  A moment's textual form is non-numeric;
it is modelled by a tagged rendering so that numeric parses of it fail. -/
def jsToString : JSVal → String
  | JSVal.null => "null"
  | JSVal.undef => "undefined"
  | JSVal.nan => "NaN"
  | JSVal.bool b => if b then "true" else "false"
  | JSVal.num n => toString n
  | JSVal.str s => s
  | JSVal.date d => "Moment(" ++ toString d ++ ")"

/-- Leading-integer parse used for `parseInt`/`parseFloat` on strings.
JS also accepts fractions and exponents; numbers are modelled as integers,
so fractional literals are outside the model. -/
def jsLeadingInt (s : String) : Option Int :=
  let l := s.toList
  let signRest : Bool × List Char :=
    match l with
    | '-' :: r => (true, r)
    | '+' :: r => (false, r)
    | r => (false, r)
  let ds := signRest.2.takeWhile Char.isDigit
  if ds.isEmpty then none
  else
    let n : Nat := ds.foldl (fun a c => a * 10 + (c.toNat - 48)) 0
    some (if signRest.1 then -(n : Int) else (n : Int))

/-- JS `Number(string)` (used by `isFinite`): trimmed empty string is 0,
fully-numeric strings parse, anything else is `NaN` (`none`). -/
def jsNumberOfString (s : String) : Option Int :=
  let t := s.trim
  if t = "" then some 0 else t.toInt?

/-- The value of `parseFloat(v)` when it is a (finite) number. -/
def jsParseFloatNum : JSVal → Option Int
  | JSVal.num n => some n
  | JSVal.str s => jsLeadingInt s
  | _ => none

/-- JS `parseInt(v)` (radix-free, integer model). -/
def jsParseInt : JSVal → JSVal
  | JSVal.num n => JSVal.num n
  | JSVal.str s => match jsLeadingInt s with
    | some n => JSVal.num n
    | none => JSVal.nan
  | _ => JSVal.nan

/-- JS `parseFloat(v)` as a value. -/
def jsParseFloatV (v : JSVal) : JSVal :=
  match jsParseFloatNum v with
  | some n => JSVal.num n
  | none => JSVal.nan

/-- JS global `isFinite(v)` (coerces through `Number`).  A moment's
`valueOf` is a finite millisecond count. -/
def isFiniteJs : JSVal → Bool
  | JSVal.num _ => true
  | JSVal.nan => false
  | JSVal.null => true
  | JSVal.undef => false
  | JSVal.bool _ => true
  | JSVal.str s => (jsNumberOfString s).isSome
  | JSVal.date _ => true

/-- Whether `pat` occurs at the head of `l`. -/
def startsList {α : Type} [DecidableEq α] : List α → List α → Bool
  | _, [] => true
  | [], _ :: _ => false
  | a :: as, b :: bs => a = b && startsList as bs

/-- Whether `pat` occurs somewhere in `l` (substring test). -/
def containsSub {α : Type} [DecidableEq α] : List α → List α → Bool
  | [], pat => pat.isEmpty
  | hd :: tl, pat => startsList (hd :: tl) pat || containsSub tl pat

/-- JS `String.prototype.includes` / lodash `_.includes` on strings. -/
def strContains (hay needle : String) : Bool :=
  containsSub hay.toList needle.toList

structure AttrState where
  attributes : List (String × JSVal)
  original : List (String × JSVal)
  casts : List (String × String)
  dates : List String
  /-- the model's `_dateFormat`; `""` models the unset (falsy) default -/
  dateFormat : String
  /-- `timestamps` flag contributed by the HasTimestamps trait -/
  timestamps : Bool
  incrementing : Bool
  primaryKey : String
  keyType : String
  /-- keys for which a `get<K>Attribute` method exists -/
  getMutators : List String
  /-- keys for which a `set<K>Attribute` method exists -/
  setMutators : List String
deriving Repr

/-- External collaborators: `moment` (parsing, day truncation, formatting),
`JSON.parse`, user-defined mutators, the JSON-path setter (lodash `_.set`
composed with JSON decode/encode in `fillJsonAttribute`), relationship
resolution, and the base-class static method table. -/
structure JsEnv where
  parseJson : JSVal → JSVal
  momentFromUnix : Int → Int
  momentParse : String → String → Int
  startOfDay : Int → Int
  momentFormat : Int → String → String
  getMutator : String → JSVal → JSVal
  setMutator : String → JSVal → AttrState → AttrState
  fillJson : String → JSVal → AttrState → AttrState
  relationValue : String → JSVal
  baseStatics : List String

/-- `getCasts()`: when the model is incrementing the primary key's cast is
spread in front of the declared casts. -/
def getCasts (st : AttrState) : List (String × String) :=
  if st.incrementing then spreadMerge [(st.primaryKey, st.keyType)] st.casts
  else st.casts

/-- `_isCustomDateTimeCast`: lodash substring test for an embedded format. -/
def isCustomDateTimeCast (c : String) : Bool :=
  strContains c "date:" || strContains c "datetime:"

/-- `_isDecimalCast`. -/
def isDecimalCast (c : String) : Bool :=
  strContains c "decimal:"

/-- `_getCastType` on a cast specification string. -/
def getCastTypeStr (c : String) : String :=
  if isCustomDateTimeCast c then "custom_datetime"
  else if isDecimalCast c then "decimal"
  else c.toLower.trim

/-- `_getCastType(key)`.  Every caller guards the lookup with `hasCast`
(or `key in casts`); on a miss the JS would raise a TypeError. -/
def getCastType (st : AttrState) (k : String) : String :=
  getCastTypeStr ((objGet (getCasts st) k).getD "")

/-- `hasCast(key, types)`.  With a `types` array the source evaluates
`castType.includes(types)`: `String.prototype.includes` coerces the array to
its comma-joined string, so the membership the code intends never holds. -/
def hasCast (st : AttrState) (k : String) (types : Option (List String)) : Bool :=
  if (objGet (getCasts st) k).isSome then
    match types with
    | none => true
    | some ts => strContains (getCastType st k) (String.intercalate "," ts)
  else false

def isDateCastable (st : AttrState) (k : String) : Bool :=
  hasCast st k (some ["date", "datetime"])

def isJsonCastable (st : AttrState) (k : String) : Bool :=
  hasCast st k (some ["array", "json", "object", "collection"])

/-- `getDates()`: the timestamp columns are appended when in use. -/
def getDates (st : AttrState) : List String :=
  if st.timestamps then jsUniq (st.dates ++ ["created_at", "updated_at"])
  else st.dates

/-- `_getDateFormat()`: the model's format or the grammar's
`YYYY-MM-DD HH:mm:ss` fallback. -/
def getDateFormatStr (st : AttrState) : String :=
  if st.dateFormat = "" then "YYYY-MM-DD HH:mm:ss" else st.dateFormat

/-- `_isDateAttribute`. -/
def isDateAttribute (st : AttrState) (k : String) : Bool :=
  (getDates st).contains k || isDateCastable st k

/-- `_isStandardDateFormat`: the regex `^(\d{4})-(\d{1,2})-(\d{1,2})$`. -/
def isStandardDateFormat (s : String) : Bool :=
  let l := s.toList
  let d1 := l.takeWhile Char.isDigit
  match l.dropWhile Char.isDigit with
  | '-' :: r2 =>
    let d2 := r2.takeWhile Char.isDigit
    (match r2.dropWhile Char.isDigit with
     | '-' :: r4 =>
       let d3 := r4.takeWhile Char.isDigit
       d1.length = 4 && 1 ≤ d2.length && d2.length ≤ 2 &&
         1 ≤ d3.length && d3.length ≤ 2 && (r4.dropWhile Char.isDigit).isEmpty
     | _ => false)
  | _ => false

/-- Numeric coercion feeding `moment.utc(value, 'X')`. -/
def jsToNumInt : JSVal → Int
  | JSVal.num n => n
  | JSVal.str s => (jsNumberOfString s).getD 0
  | _ => 0

/-- `_asDateTime` as an epoch: moments pass through; finite numerics are
UNIX timestamps; `YYYY-M-D` strings parse with the standard format and are
truncated to the day; anything else parses with the model's date format. -/
def asDateTimeM (env : JsEnv) (st : AttrState) (v : JSVal) : Int :=
  match v with
  | JSVal.date m => m
  | v =>
    if (jsParseFloatNum v).isSome && isFiniteJs v then
      env.momentFromUnix (jsToNumInt v)
    else
      let s := jsToString v
      if isStandardDateFormat s then env.startOfDay (env.momentParse s "YYYY-MM-DD")
      else env.momentParse s (getDateFormatStr st)

/-- `_asDate`: parsed then truncated to the start of the day. -/
def asDateM (env : JsEnv) (st : AttrState) (v : JSVal) : JSVal :=
  JSVal.date (env.startOfDay (asDateTimeM env st v))

/-- `_asTimestamp`: `.unix()`; moments are modelled as epoch seconds so the
conversion is the identity on the epoch. -/
def asTimestampM (env : JsEnv) (st : AttrState) (v : JSVal) : JSVal :=
  JSVal.num (asDateTimeM env st v)

/-- `fromDateTime`: falsy values pass through, others are formatted with the
model's date format. -/
def fromDateTime (env : JsEnv) (st : AttrState) (v : JSVal) : JSVal :=
  if jsFalsy v then v
  else JSVal.str (env.momentFormat (asDateTimeM env st v) (getDateFormatStr st))

/-- `JSON.stringify` on the modelled scalars (string escaping elided; a
moment serializes through `toJSON`, rendered here with its tag). -/
def jsonStringify : JSVal → String
  | JSVal.null => "null"
  | JSVal.nan => "null"
  | JSVal.undef => "undefined"
  | JSVal.bool b => if b then "true" else "false"
  | JSVal.num n => toString n
  | JSVal.str s => "\"" ++ s ++ "\""
  | JSVal.date d => "\"Moment(" ++ toString d ++ ")\""

/-- `_asJson` / `_castAttributeAsJson` (the try/catch re-throws as-is). -/
def asJson (v : JSVal) : JSVal :=
  JSVal.str (jsonStringify v)

/-- `_castAttribute`.  Null returns immediately, before any cast is
consulted.  NOTE: the switch has no `decimal` case — a `decimal:n` cast is
classified as `"decimal"` by `_getCastType` but falls through to the default
passthrough, and the `_asDecimal` helper is never invoked. -/
def castAttribute (env : JsEnv) (st : AttrState) (k : String) (v : JSVal) : JSVal :=
  if v = JSVal.null then v
  else
    let t := getCastType st k
    if t = "int" || t = "integer" then jsParseInt v
    else if t = "real" || t = "float" || t = "double" then jsParseFloatV v
    else if t = "string" then JSVal.str (jsToString v)
    else if t = "bool" || t = "boolean" then JSVal.bool (jsTruthy v)
    else if t = "object" || t = "json" then env.parseJson v
    else if t = "array" || t = "collection" then env.parseJson v
    else if t = "date" then asDateM env st v
    else if t = "datetime" || t = "custom_datetime" then JSVal.date (asDateTimeM env st v)
    else if t = "timestamp" then asTimestampM env st v
    else v

/-- `_getAttributeFromArray`: a missing property reads as `undefined`. -/
def getAttributeFromArray (st : AttrState) (k : String) : JSVal :=
  (objGet st.attributes k).getD JSVal.undef

def hasGetMutator (st : AttrState) (k : String) : Bool :=
  st.getMutators.contains k

def hasSetMutator (st : AttrState) (k : String) : Bool :=
  st.setMutators.contains k

/-- `getAttributeValue`: mutator, then cast, then date-column coercion. -/
def getAttributeValue (env : JsEnv) (st : AttrState) (k : String) : JSVal :=
  let value := getAttributeFromArray st k
  if hasGetMutator st k then env.getMutator k value
  else if hasCast st k none then castAttribute env st k value
  else if (getDates st).contains k && !(value = JSVal.null) then
    JSVal.date (asDateTimeM env st value)
  else value

/-- `getAttribute`: a falsy key returns `undefined`; attribute-or-mutator
keys resolve through `getAttributeValue`; base-class statics are skipped;
everything else goes to the relationship engine. -/
def getAttribute (env : JsEnv) (st : AttrState) (k : String) : JSVal :=
  if k = "" then JSVal.undef
  else if (objGet st.attributes k).isSome || hasGetMutator st k then
    getAttributeValue env st k
  else if env.baseStatics.contains k then JSVal.undef
  else env.relationValue k

/-- A key containing the JSON-path marker `->`. -/
def hasJsonArrow (k : String) : Bool :=
  strContains k "->"

/-- `setAttribute`: set-mutator override; else date-column storage
conversion for truthy values; then JSON-cast encoding (never reached: the
`_isJsonCastable` probe is always false, see `hasCast`); then JSON-path
routing; else plain storage. -/
def setAttribute (env : JsEnv) (st : AttrState) (k : String) (v : JSVal) : AttrState :=
  if hasSetMutator st k then env.setMutator k v st
  else
    let v1 := if jsTruthy v && isDateAttribute st k then fromDateTime env st v else v
    let v2 := if isJsonCastable st k && !(v1 = JSVal.null) then asJson v1 else v1
    if hasJsonArrow k then env.fillJson k v2 st
    else { st with attributes := objSet st.attributes k v2 }

/-- `syncOriginal()`: `original` becomes a shallow copy of `attributes`. -/
def syncOriginal (st : AttrState) : AttrState :=
  { st with original := st.attributes }

/-- `getOriginal(key, default)`: lodash `_.get` first resolves the key as a
direct own property (always the case here, since callers guard with
`key in original`); the dotted-path traversal on a miss yields the default
because the modelled values are scalars. -/
def getOriginal (st : AttrState) (k : String) (dflt : JSVal) : JSVal :=
  match objGet st.original k with
  | some v => v
  | none => dflt

/-- `_originalIsEquivalent`. -/
def originalIsEquivalent (env : JsEnv) (st : AttrState) (k : String)
    (current : JSVal) : Bool :=
  if (objGet st.original k).isNone then false
  else
    let original := getOriginal st k JSVal.null
    if strictEq current original then true
    else if current = JSVal.null then false
    else if isDateAttribute st k then
      strictEq (fromDateTime env st current) (fromDateTime env st original)
    else if hasCast st k none then
      strictEq (castAttribute env st k current) (castAttribute env st k original)
    else
      (jsParseFloatNum current).isSome && isFiniteJs current &&
        (jsParseFloatNum original).isSome && isFiniteJs original &&
        jsToString current = jsToString original

/-- `getDirty()`: the attributes not equivalent to their originals. -/
def getDirty (env : JsEnv) (st : AttrState) : List (String × JSVal) :=
  st.attributes.filter (fun p => !(originalIsEquivalent env st p.1 p.2))

/-- The runtime shape `_hasChanges` receives as its `attributes` argument. -/
inductive AttrSel where
  | jsNull : AttrSel
  | argsObj : List String → AttrSel
  | jsArray : List String → AttrSel

/-- `_hasChanges`.  A null or empty selection asks whether the dirty map is
non-empty.  An `arguments` object is iterated key by key.  An Array argument
is re-wrapped as `[attributes]`, so the loop runs once with the array itself,
which the `in` operator coerces to its comma-joined property key. -/
def hasChanges (changes : List (String × JSVal)) : AttrSel → Bool
  | AttrSel.jsNull => !changes.isEmpty
  | AttrSel.argsObj l =>
    if l.isEmpty then !changes.isEmpty
    else l.any (fun k => (objGet changes k).isSome)
  | AttrSel.jsArray l => (objGet changes (String.intercalate "," l)).isSome

/-- How `isDirty` was invoked. -/
inductive DirtyArg where
  | noArg : DirtyArg
  | nullArg : DirtyArg
  | strArg : String → DirtyArg
  | arrArg : List String → DirtyArg

/-- `isDirty`'s argument normalization: a non-null non-Array argument is
replaced by the `arguments` object; `null` flows through unchanged. -/
def dirtySel : DirtyArg → AttrSel
  | DirtyArg.noArg => AttrSel.argsObj []
  | DirtyArg.nullArg => AttrSel.jsNull
  | DirtyArg.strArg s => AttrSel.argsObj [s]
  | DirtyArg.arrArg l => AttrSel.jsArray l

/-- `isDirty(attributes?)`. -/
def isDirty (env : JsEnv) (st : AttrState) (a : DirtyArg) : Bool :=
  hasChanges (getDirty env st) (dirtySel a)

/-- Whether a value is a JS string. -/
def isStrVal : JSVal → Bool
  | JSVal.str _ => true
  | _ => false

/-- A concrete environment for evaluating the model on closed inputs. -/
def trivialEnv : JsEnv :=
  { parseJson := fun _ => JSVal.null
    momentFromUnix := id
    momentParse := fun _ _ => 0
    startOfDay := id
    momentFormat := fun _ _ => ""
    getMutator := fun _ v => v
    setMutator := fun _ _ st => st
    fillJson := fun _ _ st => st
    relationValue := fun _ => JSVal.undef
    baseStatics := [] }

/-- A model holding a NaN-valued attribute (e.g. from `parseInt` of a
non-numeric string). -/
def nanModel : AttrState :=
  { attributes := [("x", JSVal.nan)], original := [], casts := [], dates := []
    dateFormat := "", timestamps := false, incrementing := false
    primaryKey := "id", keyType := "int", getMutators := [], setMutators := [] }

/-- A freshly synced model with one integer attribute. -/
def stW : AttrState :=
  syncOriginal { nanModel with attributes := [("a", JSVal.num 1)] }

/-- A model whose attribute `b` has no counterpart in `original`. -/
def missingOrigModel : AttrState :=
  { nanModel with attributes := [("b", JSVal.num 5)], original := [] }

/-- A model with a `decimal:2` cast on `price`. -/
def decimalModel : AttrState :=
  { nanModel with attributes := [("price", JSVal.num 3)]
                  casts := [("price", "decimal:2")] }

/-- A model with a `bool`-cast column holding null. -/
def boolNullModel : AttrState :=
  { nanModel with attributes := [("flag", JSVal.null)]
                  casts := [("flag", "bool")] }

theorem strictEq_self {v : JSVal} (h : v ≠ JSVal.nan) : strictEq v v = true := by
  cases v <;> simp_all [strictEq]

/-- C3 counterexample: the claim asserts that for EVERY model `isDirty()` is
false immediately after `syncOriginal()`.  A model holding a NaN attribute
refutes it: the shallow copy preserves NaN, `NaN === NaN` is false, and the
numeric fallback of `_originalIsEquivalent` rejects NaN, so the key is
reported dirty right after the sync. -/
theorem c3_nan_dirty_after_sync :
    isDirty trivialEnv (syncOriginal nanModel) DirtyArg.noArg = true := by
  decide

/-- C3 amended: for models none of whose attribute values is NaN, `isDirty()`
is false immediately after `syncOriginal()`; after `setAttribute(k, v)`,
whenever the stored (post-conversion) value of `k` is not cast-aware
equivalent to `original[k]`, `isDirty(k)` is true and `getDirty()[k]` is the
stored value; and a key present in `attributes` but absent from `original`
is always reported dirty. -/
theorem c3_dirty_tracking_amended (env : JsEnv) (st : AttrState) :
    ((objKeys st.attributes).Nodup → (∀ p ∈ st.attributes, p.2 ≠ JSVal.nan) →
      isDirty env (syncOriginal st) DirtyArg.noArg = false) ∧
    (∀ k v stored, objGet (setAttribute env st k v).attributes k = some stored →
      originalIsEquivalent env (setAttribute env st k v) k stored = false →
      isDirty env (setAttribute env st k v) (DirtyArg.strArg k) = true ∧
      objGet (getDirty env (setAttribute env st k v)) k = some stored) ∧
    (∀ k v, objGet st.attributes k = some v → objGet st.original k = none →
      isDirty env st (DirtyArg.strArg k) = true) := by
  refine ⟨?_, ?_, ?_⟩
  · intro hnd hnan
    have hnil : getDirty env (syncOriginal st) = [] := by
      apply List.filter_eq_nil_iff.mpr
      intro p hp
      have hget : objGet (syncOriginal st).original p.1 = some p.2 := by
        simpa [syncOriginal] using objGet_eq_some_of_mem hp hnd
      simp [originalIsEquivalent, hget, getOriginal, strictEq_self (hnan p hp)]
    simp [isDirty, dirtySel, hasChanges, hnil]
  · intro k v stored hstored hequiv
    have hdirty : objGet (getDirty env (setAttribute env st k v)) k = some stored := by
      apply objGet_filter _ _ _ _ hstored
      simp [hequiv]
    constructor
    · simp [isDirty, dirtySel, hasChanges, hdirty]
    · exact hdirty
  · intro k v hattr horig
    have hequiv : originalIsEquivalent env st k v = false := by
      simp [originalIsEquivalent, horig]
    have hdirty : objGet (getDirty env st) k = some v := by
      apply objGet_filter _ _ _ _ hattr
      simp [hequiv]
    simp [isDirty, dirtySel, hasChanges, hdirty]

/-- C3 witness: the amended theorem evaluated at concrete models — a clean
synced model, an update of `a` from 1 to 2, and a key missing from
`original`. -/
theorem c3_dirty_tracking_witness :
    isDirty trivialEnv (syncOriginal stW) DirtyArg.noArg = false ∧
    (isDirty trivialEnv (setAttribute trivialEnv stW "a" (JSVal.num 2))
        (DirtyArg.strArg "a") = true ∧
      objGet (getDirty trivialEnv (setAttribute trivialEnv stW "a" (JSVal.num 2)))
        "a" = some (JSVal.num 2)) ∧
    isDirty trivialEnv missingOrigModel (DirtyArg.strArg "b") = true := by
  exact ⟨(c3_dirty_tracking_amended trivialEnv (syncOriginal stW)).1
      (by decide) (by decide),
    (c3_dirty_tracking_amended trivialEnv stW).2.1 "a" (JSVal.num 2) (JSVal.num 2)
      (by decide) (by decide),
    (c3_dirty_tracking_amended trivialEnv missingOrigModel).2.2 "b" (JSVal.num 5)
      (by decide) (by decide)⟩

/-- C7: a `decimal:2` cast is classified as type `"decimal"` by
`_getCastType`, but `_castAttribute`'s switch has no `decimal` case, so a
non-null value falls through the default and is returned unchanged — it is
not the fixed-precision string the claim requires (`_asDecimal` is dead
code). -/
theorem c7_decimal_cast_not_applied :
    getCastType decimalModel "price" = "decimal" ∧
    castAttribute trivialEnv decimalModel "price" (JSVal.num 3) = JSVal.num 3 ∧
    isStrVal (castAttribute trivialEnv decimalModel "price" (JSVal.num 3)) = false := by
  exact ⟨by decide, by decide, by decide⟩

/-- C10: `_castAttribute` returns a stored null unchanged before consulting
the cast (so every cast kind, including unknown ones, is bypassed), and
`getAttribute` on a null-stored, mutator-free key yields null. -/
theorem c10_null_passthrough :
    (∀ (env : JsEnv) (st : AttrState) (k : String),
      castAttribute env st k JSVal.null = JSVal.null) ∧
    (∀ (env : JsEnv) (st : AttrState) (k : String), k ≠ "" →
      hasGetMutator st k = false → objGet st.attributes k = some JSVal.null →
      getAttribute env st k = JSVal.null) := by
  constructor
  · intro env st k
    simp [castAttribute]
  · intro env st k hk hmut hattr
    by_cases hc : hasCast st k none <;>
      simp [getAttribute, hk, hattr, getAttributeValue, getAttributeFromArray,
        hmut, hc, castAttribute]

/-- C10 witness: a `bool`-cast column holding null reads back as null. -/
theorem c10_null_passthrough_witness :
    castAttribute trivialEnv boolNullModel "flag" JSVal.null = JSVal.null ∧
    getAttribute trivialEnv boolNullModel "flag" = JSVal.null := by
  exact ⟨c10_null_passthrough.1 trivialEnv boolNullModel "flag",
    c10_null_passthrough.2 trivialEnv boolNullModel "flag" (by decide) (by decide)
      (by decide)⟩

/-! ## Touch suppression (`src/model/Model.js` `isIgnoringTouch`,
`src/model/relations/Relation.js` `touch`)

Model classes are identified by numbers; the `timestamps` /
`UPDATED_AT` lookups on the class are inputs (the HasTimestamps trait file
is outside the provided sources). -/

/-- The `forEach` walk inside `isIgnoringTouch`: each callback compares the
class against an ignore-set entry and executes `return true` on a match —
but that return only exits the CALLBACK; `forEach` discards the callbacks'
results, iteration continues, and the enclosing function falls through to
its final `return false`. -/
def forEachIgnoredClasses : List Nat → Nat → Bool
  | [], _ => false
  | c :: rest, cls =>
    let _callbackResult := decide (c = cls)
    forEachIgnoredClasses rest cls

/-- `Model.isIgnoringTouch(cls)`. -/
def isIgnoringTouch (timestamps hasUpdatedAtColumn : Bool)
    (ignoreOnTouch : List Nat) (cls : Nat) : Bool :=
  if !timestamps || !hasUpdatedAtColumn then true
  else forEachIgnoredClasses ignoreOnTouch cls

inductive TouchOp where
  | update : String → TouchOp
deriving DecidableEq, Repr

/-- `Relation.touch()`: issue the updated-column raw update unless the
related class is ignoring touches. -/
def touch (timestamps hasUpdatedAtColumn : Bool) (ignoreOnTouch : List Nat)
    (cls : Nat) : List TouchOp :=
  if !(isIgnoringTouch timestamps hasUpdatedAtColumn ignoreOnTouch cls) then
    [TouchOp.update "updated_at"]
  else []

/-- C5: a related class that IS in the process-wide ignore-touch set (here
class 7, registered e.g. via `withoutTouchingOn`) is still reported as not
ignoring touches — the early `return true` inside the `forEach` callback is
swallowed — so `touch()` issues the update statement the claim says must be
suppressed. -/
theorem c5_touch_ignores_ignore_set :
    isIgnoringTouch true true [7] 7 = false ∧
    touch true true [7] 7 = [TouchOp.update "updated_at"] := by
  exact ⟨rfl, rfl⟩

/-! ## Mass-assignment guarding (`GuardsAttributes` trait, `Model.fill`) -/

/-- The value of `this.getGuarded() === ['*']`: a strict equality between an
array-valued expression and a FRESH array literal compares object
references, hence is always false in JS. -/
def guardedRefEqStarLiteral : Bool := false

structure GuardState where
  fillable : List String
  guarded : List String
  unguarded : Bool

/-- `isGuarded(key)`. -/
def isGuarded (g : GuardState) (key : String) : Bool :=
  g.guarded.contains key || guardedRefEqStarLiteral

/-- `totallyGuarded()`. -/
def totallyGuarded (g : GuardState) : Bool :=
  (g.fillable.length = 0) && guardedRefEqStarLiteral

def startsWithUnderscore (k : String) : Bool :=
  match k.toList with
  | '_' :: _ => true
  | _ => false

/-- `isFillable(key)`. -/
def isFillable (g : GuardState) (key : String) : Bool :=
  if g.unguarded then true
  else if g.fillable.contains key then true
  else if isGuarded g key then false
  else g.fillable.isEmpty && !startsWithUnderscore key

/-- `_fillableFromArray`. -/
def fillableFromArray (g : GuardState) (attrs : List (String × JSVal)) :
    List (String × JSVal) :=
  if 0 < g.fillable.length && !g.unguarded then
    attrs.filter (fun p => g.fillable.contains p.1)
  else attrs

/-- `_removeTableFromKey`. -/
def removeTableFromKey (k : String) : String :=
  if k.toList.contains '.' then (k.splitOn ".").getLastD "" else k

/-- The `forEach` body of `fill`: fillable keys are assigned via the given
setter, a non-fillable key raises `MassAssignmentError(key)` when totally
guarded (a throw inside the callback propagates out of `forEach`) and is
silently skipped otherwise. -/
def fillGo {σ : Type} (g : GuardState) (setAttr : String → JSVal → σ → σ) :
    σ → List (String × JSVal) → Except String σ
  | s, [] => Except.ok s
  | s, (k0, v) :: rest =>
    let key := removeTableFromKey k0
    if isFillable g key then fillGo g setAttr (setAttr key v s) rest
    else if totallyGuarded g then Except.error key
    else fillGo g setAttr s rest

/-- `fill(attributes)` (the attribute-storage side of `setAttribute` is the
`setAttr` parameter). -/
def fill {σ : Type} (g : GuardState) (setAttr : String → JSVal → σ → σ)
    (s : σ) (attrs : List (String × JSVal)) : Except String σ :=
  fillGo g setAttr s (fillableFromArray g attrs)

/-- The default "totally guarded" configuration: no fillable keys, guarded
list `['*']`, not unguarded. -/
def defaultGuard : GuardState :=
  { fillable := [], guarded := ["*"], unguarded := false }

/-- C6: in the claimed "totally guarded" mode no `MassAssignmentError` can
ever be raised: `totallyGuarded()` compares `getGuarded()` against a fresh
`['*']` literal by reference (always false), and `isGuarded` only tests
literal membership, so a plain key is deemed fillable and assigned, while an
underscore-prefixed key is silently skipped — `fill` never throws, contrary
to the claim and to `fill`'s own `@throws MassAssignmentException` contract. -/
theorem c6_totally_guarded_never_throws :
    totallyGuarded defaultGuard = false ∧
    isGuarded defaultGuard "a" = false ∧
    isFillable defaultGuard "a" = true ∧
    fill defaultGuard (fun k v s => objSet s k v) ([] : List (String × JSVal))
      [("a", JSVal.num 1)] = Except.ok [("a", JSVal.num 1)] ∧
    fill defaultGuard (fun k v s => objSet s k v) ([] : List (String × JSVal))
      [("_x", JSVal.num 1)] = Except.ok [] := by
  exact ⟨rfl, rfl, rfl, rfl, rfl⟩

/-! ## `findOrFail` (`src/model/Builder.js`)

`get` and `first` are `async` functions, and `findOrFail` reads
`let result = this.find(id, columns)` WITHOUT awaiting it, so except for the
empty-id-array shortcut (`findMany([])` returns `newCollection()`, a plain
array, synchronously) `result` is a pending Promise.  The eventual
resolution of that promise is carried in the model only to show what the
missing `await` discards; rows are identified by numbers, `db`/`db1`
abstract what the fetch would resolve to. -/

/-- A JS Promise as `findOrFail` observes it: an ordinary object, carrying
its eventual resolution. -/
structure JsPromise (α : Type) where
  resolvesTo : α
deriving DecidableEq, Repr

/-- What `find(id)` returns for an array of ids, before any await: the
synchronous empty collection for `[]`, otherwise the pending Promise of the
async `whereKey(ids).get(columns)`. -/
inductive BatchFindResult where
  | collection : List Nat → BatchFindResult
  | pending : JsPromise (List Nat) → BatchFindResult
deriving DecidableEq, Repr

def findBatch (db : List Nat → List Nat) (ids : List Nat) : BatchFindResult :=
  if ids.isEmpty then BatchFindResult.collection []
  else BatchFindResult.pending ⟨db ids⟩

/-- The property read `result.length`: an array has its length, a Promise
has no `length` property, so the read yields `undefined` (`none`). -/
def jsLengthProp : BatchFindResult → Option Nat
  | BatchFindResult.collection rows => some rows.length
  | BatchFindResult.pending _ => none

/-- `result.length === n`: strict equality against a number is false when
the left side is `undefined`. -/
def jsLengthEq (r : BatchFindResult) (n : Nat) : Bool :=
  match jsLengthProp r with
  | some m => m = n
  | none => false

/-- What `findOrFail`'s failure arm actually raises: evaluating
`new ModelNotFoundException` throws a ReferenceError, because
`ModelNotFoundException` is neither imported by the module nor defined
anywhere in the sources — the typed not-found error (with `setModel`) can
never be constructed. -/
inductive FindFailure where
  | referenceError : FindFailure
deriving DecidableEq, Repr

/-- `findOrFail` on an array of ids. -/
def findOrFailMany (db : List Nat → List Nat) (ids : List Nat) :
    Except FindFailure BatchFindResult :=
  let result := findBatch db ids
  if jsLengthEq result (jsUniq ids).length then Except.ok result
  else Except.error FindFailure.referenceError

/-- What `find(id)` returns for a scalar id, before any await:
`whereKey(id).first(columns)` with `first` async, i.e. a pending Promise of
the row or null. -/
def findScalar (db1 : Nat → Option Nat) (id : Nat) : JsPromise (Option Nat) :=
  ⟨db1 id⟩

/-- lodash `_.isNull` applied to the unawaited result: a Promise object is
never null. -/
def lodashIsNullPromise {α : Type} (_ : JsPromise α) : Bool := false

/-- `findOrFail` on a scalar id. -/
def findOrFailOne (db1 : Nat → Option Nat) (id : Nat) :
    Except FindFailure (JsPromise (Option Nat)) :=
  let result := findScalar db1 id
  if !(lodashIsNullPromise result) then Except.ok result
  else Except.error FindFailure.referenceError

/-- C8: `findOrFail` never awaits `find`, and `get`/`first` are async.  For
a non-empty id array the unawaited Promise has no `length`, so the count
check `result.length === _.uniq(id).length` is false and `findOrFail`
throws even when the fetch resolves with a row for every requested id (the
throw itself raising a ReferenceError, `ModelNotFoundException` being
undefined); only the empty array reaches the success path.  For a scalar id
the result is a Promise, `_.isNull` on it is false, and `findOrFail`
returns it without ever signalling not-found — even when the lookup
misses. -/
theorem c8_findOrFail_unawaited :
    findOrFailMany (fun ids => jsUniq ids) [1, 2] =
      Except.error FindFailure.referenceError ∧
    findOrFailMany (fun ids => jsUniq ids) [] =
      Except.ok (BatchFindResult.collection []) ∧
    findOrFailOne (fun _ => none) 7 = Except.ok ⟨none⟩ ∧
    findOrFailOne (fun n => some n) 5 = Except.ok ⟨some 5⟩ := by
  exact ⟨rfl, rfl, rfl, rfl⟩

/-! ## Idempotent class boot (`Model._bootIfNotBooted`) -/

/-- Class-wide state: the booted-classes map, the registrations made by the
class's boot routine (trait boot hooks, scope registration), and the fired
model events. -/
structure BootSt where
  booted : List String
  registry : List Nat
  events : List String
deriving DecidableEq, Repr

/-- `_bootIfNotBooted`: when the class name is not flagged, flag it, fire
`booting`, run `_boot` (which registers `bootOps`), fire `booted`; otherwise
do nothing. -/
def bootIfNotBooted (cls : String) (bootOps : List Nat) (s : BootSt) : BootSt :=
  if s.booted.contains cls then s
  else
    { booted := s.booted ++ [cls]
      registry := s.registry ++ bootOps
      events := s.events ++ ["booting", "booted"] }

/-- The class-level effect of `new Model(...)`: `_bootIfNotBooted` runs
first; `syncOriginal` and `fill` only touch the fresh instance, not the
class-wide registries. -/
def construct (cls : String) (bootOps : List Nat) (s : BootSt) : BootSt :=
  bootIfNotBooted cls bootOps s

/-- C9: booting is idempotent — a first construction of an un-booted class
registers its boot operations exactly once, and a second construction
observes the booted flag and changes nothing (registries included). -/
theorem c9_boot_idempotent (cls : String) (ops : List Nat) (s : BootSt) :
    (s.booted.contains cls = false →
      construct cls ops s =
        { booted := s.booted ++ [cls], registry := s.registry ++ ops
          events := s.events ++ ["booting", "booted"] }) ∧
    construct cls ops (construct cls ops s) = construct cls ops s := by
  constructor
  · intro h
    have h' : cls ∉ s.booted := by simpa using h
    simp [construct, bootIfNotBooted, h']
  · by_cases h' : cls ∈ s.booted <;>
      simp [construct, bootIfNotBooted, h']

/-- C9 witness: two constructions of `User` from a clean slate. -/
theorem c9_boot_idempotent_witness :
    construct "User" [1, 2] ⟨[], [], []⟩ =
      ⟨["User"], [1, 2], ["booting", "booted"]⟩ ∧
    construct "User" [1, 2] (construct "User" [1, 2] ⟨[], [], []⟩) =
      construct "User" [1, 2] ⟨[], [], []⟩ := by
  exact ⟨(c9_boot_idempotent "User" [1, 2] ⟨[], [], []⟩).1 (by decide),
    (c9_boot_idempotent "User" [1, 2] ⟨[], [], []⟩).2⟩

/-! ## Eager-load map (`_parseWithRelations` / `_addNestedWiths`)

Relation paths are JS strings, modelled as `List Char` so that
`String.prototype.split` and `Array.prototype.join` can be reasoned about
directly.  `splitSep` / `joinSep` model `split(sep)` / `join(sep)`. -/

/-- JS `string.split(sep)` for a single-character separator. -/
def splitSep (sep : Char) : List Char → List (List Char)
  | [] => [[]]
  | c :: rest =>
    let r := splitSep sep rest
    if c = sep then [] :: r
    else
      match r with
      | [] => [[c]]
      | s :: ss => (c :: s) :: ss

/-- JS `parts.join(sep)` for a single-character separator. -/
def joinSep (sep : Char) : List (List Char) → List Char
  | [] => []
  | [s] => s
  | s :: s2 :: ss => s ++ sep :: joinSep sep (s2 :: ss)

theorem splitSep_ne_nil (sep : Char) (l : List Char) : splitSep sep l ≠ [] := by
  cases l with
  | nil => simp [splitSep]
  | cons c rest =>
    simp only [splitSep]
    by_cases h : c = sep
    · simp [h]
    · simp only [if_neg h]
      cases splitSep sep rest <;> simp

theorem joinSep_splitSep (sep : Char) (l : List Char) :
    joinSep sep (splitSep sep l) = l := by
  induction l with
  | nil => simp [splitSep, joinSep]
  | cons c rest ih =>
    simp only [splitSep]
    by_cases h : c = sep
    · subst h
      simp only [if_pos rfl]
      cases hr : splitSep c rest with
      | nil => exact absurd hr (splitSep_ne_nil c rest)
      | cons s ss =>
        rw [hr] at ih
        simpa [joinSep] using ih
    · simp only [if_neg h]
      cases hr : splitSep sep rest with
      | nil => exact absurd hr (splitSep_ne_nil sep rest)
      | cons s ss =>
        rw [hr] at ih
        cases ss with
        | nil => simpa [joinSep] using congrArg (c :: ·) ih
        | cons s2 ss2 => simpa [joinSep] using congrArg (c :: ·) ih

theorem sep_not_mem_of_mem_splitSep {sep : Char} {l : List Char} {p : List Char}
    (h : p ∈ splitSep sep l) : sep ∉ p := by
  induction l generalizing p with
  | nil =>
    simp only [splitSep, List.mem_singleton] at h
    subst h; simp
  | cons c rest ih =>
    simp only [splitSep] at h
    by_cases hc : c = sep
    · rw [if_pos hc] at h
      rcases List.mem_cons.mp h with h | h
      · subst h; simp
      · exact ih h
    · rw [if_neg hc] at h
      cases hr : splitSep sep rest with
      | nil => exact absurd hr (splitSep_ne_nil sep rest)
      | cons s ss =>
        rw [hr] at h
        rcases List.mem_cons.mp h with h | h
        · subst h
          intro hmem
          rcases List.mem_cons.mp hmem with h2 | h2
          · exact hc h2.symm
          · exact ih (hr ▸ List.mem_cons_self s ss) h2
        · exact ih (hr ▸ List.mem_cons.mpr (Or.inr h))

theorem splitSep_of_not_mem {sep : Char} {s : List Char} (h : sep ∉ s) :
    splitSep sep s = [s] := by
  induction s with
  | nil => simp [splitSep]
  | cons c rest ih =>
    have hc : c ≠ sep := fun he => h (he ▸ List.mem_cons_self c rest)
    have hrest : sep ∉ rest := fun hm => h (List.mem_cons.mpr (Or.inr hm))
    simp [splitSep, hc, ih hrest]

theorem splitSep_append_sep {sep : Char} {s : List Char} (t : List Char)
    (h : sep ∉ s) : splitSep sep (s ++ sep :: t) = s :: splitSep sep t := by
  induction s with
  | nil => simp [splitSep]
  | cons c rest ih =>
    have hc : c ≠ sep := fun he => h (he ▸ List.mem_cons_self c rest)
    have hrest : sep ∉ rest := fun hm => h (List.mem_cons.mpr (Or.inr hm))
    simp only [List.cons_append, splitSep, if_neg hc]
    rw [List.append_eq, ih hrest]

theorem splitSep_joinSep {sep : Char} {parts : List (List Char)}
    (hne : parts ≠ []) (hsep : ∀ p ∈ parts, sep ∉ p) :
    splitSep sep (joinSep sep parts) = parts := by
  induction parts with
  | nil => exact absurd rfl hne
  | cons p rest ih =>
    cases rest with
    | nil =>
      simp only [joinSep]
      exact splitSep_of_not_mem (hsep p (List.mem_cons_self p []))
    | cons p2 rest2 =>
      have hp : sep ∉ p := hsep p (List.mem_cons_self p (p2 :: rest2))
      have hrest : ∀ q ∈ p2 :: rest2, sep ∉ q :=
        fun q hq => hsep q (List.mem_cons.mpr (Or.inr hq))
      simp only [joinSep, splitSep_append_sep _ hp,
        ih (by simp) hrest]

/-- An eager-load constraint value: the no-op closure planted for numeric
and placeholder entries, the column-selecting closure produced by the
`"name:col1,col2"` shorthand, or a caller-supplied closure (by identity). -/
inductive Con where
  | noop : Con
  | selectCols : List (List Char) → Con
  | user : Nat → Con
deriving DecidableEq, Repr

/-- The `if (!(results[last])) results[last] = noop` step of
`_addNestedWiths`: constraint values are functions, hence truthy, so the
placeholder is planted exactly when the key is absent. -/
def setIfAbsent (l : List (List Char × Con)) (k : List Char) : List (List Char × Con) :=
  if (objGet l k).isSome then l else l ++ [(k, Con.noop)]

/-- The `forEach` over segments in `_addNestedWiths`: `progress` accumulates
the segments seen so far and each join gets a placeholder if absent. -/
def addNestedGo : List (List Char) → List (List Char) →
    List (List Char × Con) → List (List Char × Con)
  | [], _, results => results
  | seg :: rest, progress, results =>
    let progress2 := progress ++ [seg]
    addNestedGo rest progress2 (setIfAbsent results (joinSep '.' progress2))

/-- `_addNestedWiths(name, results)`. -/
def addNestedWiths (name : List Char) (results : List (List Char × Con)) :
    List (List Char × Con) :=
  addNestedGo (splitSep '.' name) [] results

/-- One entry of the argument to `with` / `_parseWithRelations`: a
numeric-key (positional, unconstrained) path or a name with a constraint. -/
inductive WithRel where
  | pos : List Char → WithRel
  | keyed : List Char → Nat → WithRel

/-- The key and constraint for one entry: a positional name containing `:`
goes through `_createSelectWithConstraint` (`name.split(':')[0]` and the
comma-split of `name.split(':')[1]`), a plain positional name gets the no-op
closure, a keyed entry keeps its constraint. -/
def parseItem : WithRel → List Char × Con
  | WithRel.pos name =>
    if name.contains ':' then
      ((splitSep ':' name).headD [],
        Con.selectCols (splitSep ',' (((splitSep ':' name).drop 1).headD [])))
    else (name, Con.noop)
  | WithRel.keyed name c => (name, Con.user c)

/-- `_parseWithRelations`: each entry first plants nested placeholders, then
stores its own constraint under its full name. -/
def parseWithRelations (items : List WithRel) : List (List Char × Con) :=
  items.foldl
    (fun m item =>
      let p := parseItem item
      objSet (addNestedWiths p.1 m) p.1 p.2)
    []

/-- The progressive joins `join(progress ++ [s1]), join(progress ++ [s1, s2]), ...`
of a segment list (the keys `_addNestedWiths` plants). -/
def progJoins : List (List Char) → List (List Char) → List (List Char)
  | _, [] => []
  | progress, seg :: rest =>
    joinSep '.' (progress ++ [seg]) :: progJoins (progress ++ [seg]) rest

/-- All dotted prefixes of a path (the path itself included). -/
def prefixJoins (k : List Char) : List (List Char) :=
  progJoins [] (splitSep '.' k)

theorem objGet_setIfAbsent_of_some {l : List (List Char × Con)} {k k2 : List Char}
    {c : Con} (h : objGet l k = some c) : objGet (setIfAbsent l k2) k = some c := by
  unfold setIfAbsent
  by_cases hs : (objGet l k2).isSome
  · simp [hs, h]
  · simp only [hs, if_false]
    exact objGet_append_left h

theorem isSome_objGet_setIfAbsent_self (l : List (List Char × Con)) (k : List Char) :
    (objGet (setIfAbsent l k) k).isSome := by
  unfold setIfAbsent
  by_cases hs : (objGet l k).isSome
  · simp [hs]
  · rw [if_neg hs, objGet_append_of_none _ (Option.not_isSome_iff_eq_none.mp hs)]
    simp [objGet]

theorem isSome_objGet_setIfAbsent_of_isSome {l : List (List Char × Con)}
    {k : List Char} (k2 : List Char) (h : (objGet l k).isSome) :
    (objGet (setIfAbsent l k2) k).isSome := by
  rcases Option.isSome_iff_exists.mp h with ⟨c, hc⟩
  simp [objGet_setIfAbsent_of_some hc]

theorem mem_objKeys_setIfAbsent {l : List (List Char × Con)} {k : List Char}
    (k2 : List Char) (h : k ∈ objKeys (setIfAbsent l k2)) :
    k ∈ objKeys l ∨ k = k2 := by
  unfold setIfAbsent at h
  by_cases hs : (objGet l k2).isSome
  · rw [if_pos hs] at h
    exact Or.inl h
  · rw [if_neg hs] at h
    simp only [objKeys, List.map_append] at h
    rcases List.mem_append.mp h with h | h
    · exact Or.inl h
    · simp at h
      exact Or.inr h

theorem objGet_addNestedGo_of_some {segs progress : List (List Char)}
    {m : List (List Char × Con)} {k : List Char} {c : Con}
    (h : objGet m k = some c) : objGet (addNestedGo segs progress m) k = some c := by
  induction segs generalizing progress m with
  | nil => simpa [addNestedGo] using h
  | cons seg rest ih =>
    simp only [addNestedGo]
    exact ih (objGet_setIfAbsent_of_some h)

theorem mem_objKeys_addNestedGo_of_mem {segs progress : List (List Char)}
    {m : List (List Char × Con)} {k : List Char}
    (h : k ∈ objKeys m) : k ∈ objKeys (addNestedGo segs progress m) := by
  rcases Option.isSome_iff_exists.mp (isSome_objGet_of_mem_keys h) with ⟨c, hc⟩
  exact mem_keys_of_objGet_isSome (by simp [objGet_addNestedGo_of_some hc])

theorem mem_objKeys_addNestedGo_progJoins {segs : List (List Char)}
    (progress : List (List Char)) (m : List (List Char × Con))
    {p : List Char} (hp : p ∈ progJoins progress segs) :
    p ∈ objKeys (addNestedGo segs progress m) := by
  induction segs generalizing progress m with
  | nil => simp [progJoins] at hp
  | cons seg rest ih =>
    simp only [progJoins, List.mem_cons] at hp
    simp only [addNestedGo]
    rcases hp with hp | hp
    · subst hp
      exact mem_objKeys_addNestedGo_of_mem
        (mem_keys_of_objGet_isSome (isSome_objGet_setIfAbsent_self m _))
    · exact ih _ _ hp

theorem mem_objKeys_addNestedGo {segs progress : List (List Char)}
    {m : List (List Char × Con)} {k : List Char}
    (h : k ∈ objKeys (addNestedGo segs progress m)) :
    k ∈ objKeys m ∨ k ∈ progJoins progress segs := by
  induction segs generalizing progress m with
  | nil => exact Or.inl (by simpa [addNestedGo] using h)
  | cons seg rest ih =>
    simp only [addNestedGo] at h
    rcases ih h with h2 | h2
    · rcases mem_objKeys_setIfAbsent _ h2 with h3 | h3
      · exact Or.inl h3
      · exact Or.inr (by simp [progJoins, h3])
    · exact Or.inr (by simp [progJoins, h2])

theorem mem_progJoins_iff {segs progress : List (List Char)} {p : List Char} :
    p ∈ progJoins progress segs ↔
      ∃ i, i < segs.length ∧ p = joinSep '.' (progress ++ segs.take (i + 1)) := by
  induction segs generalizing progress with
  | nil => simp [progJoins]
  | cons seg rest ih =>
    simp only [progJoins, List.mem_cons]
    constructor
    · intro h
      rcases h with h | h
      · exact ⟨0, by simp, by simpa using h⟩
      · rcases (ih).mp h with ⟨i, hi, hp⟩
        exact ⟨i + 1, by simpa using hi, by simpa [List.append_assoc] using hp⟩
    · rintro ⟨i, hi, hp⟩
      cases i with
      | zero => exact Or.inl (by simpa using hp)
      | succ j =>
        refine Or.inr ((ih).mpr ⟨j, by simpa using hi, ?_⟩)
        simpa [List.append_assoc] using hp

theorem prefixJoins_trans {k p : List Char} (h : p ∈ prefixJoins k) :
    ∀ q ∈ prefixJoins p, q ∈ prefixJoins k := by
  rcases mem_progJoins_iff.mp h with ⟨i, hi, hp⟩
  intro q hq
  have hps : splitSep '.' p = (splitSep '.' k).take (i + 1) := by
    rw [hp]
    simp only [List.nil_append]
    apply splitSep_joinSep
    · intro hnil
      rcases List.take_eq_nil_iff.mp hnil with h2 | h2
      · exact Nat.succ_ne_zero i h2
      · exact splitSep_ne_nil '.' k h2
    · intro x hx
      exact sep_not_mem_of_mem_splitSep (List.take_subset _ _ hx)
  rcases mem_progJoins_iff.mp hq with ⟨j, hj, hqe⟩
  rw [hps] at hj hqe
  have hjlen : j < min (i + 1) (splitSep '.' k).length := by
    simpa [List.length_take] using hj
  apply mem_progJoins_iff.mpr
  refine ⟨j, lt_of_lt_of_le hjlen (min_le_right _ _), ?_⟩
  rw [hqe]
  simp only [List.nil_append]
  rw [List.take_take]
  congr 2
  omega

/-- The prefix-closure invariant of an eager-load map. -/
def ClosedMap (m : List (List Char × Con)) : Prop :=
  ∀ k ∈ objKeys m, ∀ p ∈ prefixJoins k, p ∈ objKeys m

theorem closedMap_objSet_addNested {m : List (List Char × Con)}
    (name : List Char) (con : Con) (h : ClosedMap m) :
    ClosedMap (objSet (addNestedWiths name m) name con) := by
  intro k hk p hp
  have hkeysM : ∀ q, q ∈ objKeys (addNestedWiths name m) →
      q ∈ objKeys (objSet (addNestedWiths name m) name con) :=
    fun q hq => mem_objKeys_objSet_of_mem _ _ hq
  have hprefName : ∀ q ∈ prefixJoins name,
      q ∈ objKeys (objSet (addNestedWiths name m) name con) :=
    fun q hq => hkeysM q (mem_objKeys_addNestedGo_progJoins [] m hq)
  rcases mem_objKeys_of_objSet hk with hk2 | hk2
  · rcases mem_objKeys_addNestedGo hk2 with hk3 | hk3
    · exact hkeysM p (mem_objKeys_addNestedGo_of_mem (h k hk3 p hp))
    · exact hprefName p (prefixJoins_trans hk3 p hp)
  · subst hk2
    exact hprefName p hp

theorem closedMap_parse_go (items : List WithRel) :
    ∀ m, ClosedMap m →
      ClosedMap (items.foldl
        (fun m item =>
          let p := parseItem item
          objSet (addNestedWiths p.1 m) p.1 p.2) m) := by
  induction items with
  | nil => intro m h; simpa using h
  | cons item rest ih =>
    intro m h
    simp only [List.foldl_cons]
    exact ih _ (closedMap_objSet_addNested _ _ h)

/-- C4: `with(['a.b.c'])` yields the three entries `'a'`, `'a.b'` (both
bound to no-op closures) and `'a.b.c'`; the eager-load map built by
`_parseWithRelations` is closed under dotted prefixes for every input; and
`_addNestedWiths` never overwrites an entry that is already present. -/
theorem c4_eager_load_prefix_closure :
    parseWithRelations [WithRel.pos ("a.b.c".toList)] =
      [("a".toList, Con.noop), ("a.b".toList, Con.noop),
        ("a.b.c".toList, Con.noop)] ∧
    (∀ (items : List WithRel) (k : List Char),
      k ∈ objKeys (parseWithRelations items) →
      ∀ p ∈ prefixJoins k, p ∈ objKeys (parseWithRelations items)) ∧
    (∀ (m : List (List Char × Con)) (name k : List Char) (c : Con),
      objGet m k = some c → objGet (addNestedWiths name m) k = some c) := by
  refine ⟨by decide, ?_, ?_⟩
  · intro items k hk p hp
    exact closedMap_parse_go items [] (by intro k hk; simp [objKeys] at hk) k hk p hp
  · intro m name k c h
    exact objGet_addNestedGo_of_some h

/-- C4 witness: the closure applied to `with(['a.b.c'])` at the prefix
`'a'`, and preservation of the pre-existing entry `'x'` when `'x.y'` plants
its placeholders. -/
theorem c4_eager_load_prefix_closure_witness :
    "a".toList ∈ objKeys (parseWithRelations [WithRel.pos ("a.b.c".toList)]) ∧
    objGet (addNestedWiths ("x.y".toList) [("x".toList, Con.user 3)])
      ("x".toList) = some (Con.user 3) := by
  exact ⟨c4_eager_load_prefix_closure.2.1 [WithRel.pos ("a.b.c".toList)]
      ("a.b.c".toList) (by decide) ("a".toList) (by decide),
    c4_eager_load_prefix_closure.2.2 [("x".toList, Con.user 3)]
      ("x.y".toList) ("x".toList) (Con.user 3) (by decide)⟩

end JalaORM


